import Mathlib

/-!
Verification development for the CrossChainBridge repository.

This file embeds, as executable Lean definitions, the parts of the
repository that the verified properties are about:

* the relayer's Merkle proof engine (`relayer/src/proofGenerator.ts`,
  built on merkletreejs with `sortPairs: true`, `hashLeaves: false`,
  `duplicateOdd: false`);
* the Solidity `MerkleProof` library (sorted-pair verification) and
  `MessageLib.generateLeafHash` (`abi.encodePacked` of the seven
  transfer fields);
* the `BridgeValidator` contract (roots, nonces, validation);
* the `BridgeToken.mint` / `BridgeVault.unlock` entry points;
* the relayer pipeline (event listener inserts, transaction submitter
  status updates over the SQLite store).

Digests are modelled as natural numbers and keccak256 as an arbitrary
function parameter: every property proved here holds for any choice of
the hash function, and the concrete witnesses instantiate it with small
executable functions.
-/

/-! ## Merkle proof engine

`hashPair` models both merkletreejs pair hashing with `sortPairs: true`
(relayer side) and `MerkleProof._hashPair` (Solidity side): the two
digests are hashed in ascending order.  `hp` stands for the keccak256
hash of the 64-byte concatenation of the two 32-byte digests. -/
def hashPair (hp : Nat → Nat → Nat) (a b : Nat) : Nat :=
  if a < b then hp a b else hp b a

/-- One level of merkletreejs `createHashes` with `sortPairs: true` and
`duplicateOdd: false`: siblings are combined pairwise and an unpaired
last node is promoted to the next level unchanged. -/
def nextLevel (hp : Nat → Nat → Nat) : List Nat → List Nat
  | [] => []
  | [a] => [a]
  | a :: b :: rest => hashPair hp a b :: nextLevel hp rest

theorem nextLevel_length (hp : Nat → Nat → Nat) :
    ∀ l : List Nat, (nextLevel hp l).length = (l.length + 1) / 2
  | [] => by simp [nextLevel]
  | [_] => by simp [nextLevel]
  | _ :: _ :: rest => by
      simp only [nextLevel, List.length_cons, nextLevel_length hp rest]
      omega

/-- Level-combination loop of `MerkleTree.getRoot`, fuel-indexed so that
the recursion is structural (each level strictly shrinks the list, so
`l.length` fuel always suffices). -/
def buildRootAux (hp : Nat → Nat → Nat) : Nat → List Nat → Nat
  | _, [] => 0
  | _, [a] => a
  | 0, _ :: _ :: _ => 0
  | fuel + 1, a :: b :: rest => buildRootAux hp fuel (nextLevel hp (a :: b :: rest))

/-- Root of the merkletreejs tree built over the given leaf digests
(`MerkleTree.getRoot`): levels are combined until a single digest
remains.  The empty tree's `'0x'` sentinel is modelled as `0`; the
claims only use non-empty leaf lists. -/
def buildRoot (hp : Nat → Nat → Nat) (l : List Nat) : Nat :=
  buildRootAux hp l.length l

/-- merkletreejs `getProof` level loop, fuel-indexed like `buildRootAux`:
at every level the sibling digest is appended when it exists, and the
index is halved. -/
def getProofFuel (hp : Nat → Nat → Nat) : Nat → List Nat → Nat → List Nat
  | _, [], _ => []
  | _, [_], _ => []
  | 0, _ :: _ :: _, _ => []
  | fuel + 1, a :: b :: rest, i =>
      (if (if i % 2 = 1 then i - 1 else i + 1) < (a :: b :: rest).length then
        [(a :: b :: rest).getD (if i % 2 = 1 then i - 1 else i + 1) 0] else [])
        ++ getProofFuel hp fuel (nextLevel hp (a :: b :: rest)) (i / 2)

/-- merkletreejs `getProof` (as used by `getHexProof`) starting from a
leaf index. -/
def getProofAux (hp : Nat → Nat → Nat) (l : List Nat) (i : Nat) : List Nat :=
  getProofFuel hp l.length l i

/-- `MerkleProof.processProof`: fold the leaf through the proof with
sorted-pair hashing.  merkletreejs `verify` with `sortPairs: true`
computes the same fold. -/
def processProof (hp : Nat → Nat → Nat) (leaf : Nat) (proof : List Nat) : Nat :=
  proof.foldl (hashPair hp) leaf

/-- Relayer `ProofGenerator.verifyProof` (merkletreejs `verify` with
`sortPairs: true`). -/
def tsVerifyProof (hp : Nat → Nat → Nat) (leafHash : Nat) (proof : List Nat)
    (root : Nat) : Bool :=
  processProof hp leafHash proof == root

/-- Ledger-side `MerkleProof.verify`: `processProof(proof, leaf) == root`. -/
def solMerkleVerify (hp : Nat → Nat → Nat) (proof : List Nat) (root leaf : Nat) :
    Bool :=
  processProof hp leaf proof == root

/-- A bridge transaction as seen by the relayer
(`proofGenerator.ts` interface `Transaction`).  Addresses are the
numeric value of the 20-byte address, `amount` the numeric value of the
decimal string. -/
structure Tx where
  sender : Nat
  recipient : Nat
  amount : Nat
  nonce : Nat
  sourceChainId : Nat
  destinationChainId : Nat
  timestamp : Nat
deriving DecidableEq, Repr

/-- `ProofGenerator.generateProof`: build the tree over the leaf digests
of `txs` and return the proof for the first occurrence of `lh t`
together with the root. -/
def generateProof (hp : Nat → Nat → Nat) (lh : Tx → Nat) (txs : List Tx)
    (t : Tx) : List Nat × Nat :=
  let leaves := txs.map lh
  (getProofAux hp leaves (leaves.indexOf (lh t)), buildRoot hp leaves)

/-- `ProofGenerator.generateBatchProofs`: one shared tree, and a Map
keyed by `tx.nonce`; iterating `proofs.set(tx.nonce, ...)` in list order
means the last transaction with a given nonce wins.  The Map is
modelled as the list of `set` calls in order. -/
def generateBatchProofs (hp : Nat → Nat → Nat) (lh : Tx → Nat)
    (txs : List Tx) : List (Nat × (List Nat × Nat)) :=
  let leaves := txs.map lh
  let root := buildRoot hp leaves
  txs.map (fun t => (t.nonce, (getProofAux hp leaves (leaves.indexOf (lh t)), root)))

/-- JS `Map.get`: the value of the last `set` with the given key. -/
def mapGet (m : List (Nat × (List Nat × Nat))) (k : Nat) :
    Option (List Nat × Nat) :=
  ((m.filter (fun p => p.1 == k)).getLast?).map Prod.snd

/-! ### Correctness of proof generation against the tree root -/

theorem hashPair_comm (hp : Nat → Nat → Nat) (a b : Nat) :
    hashPair hp a b = hashPair hp b a := by
  unfold hashPair
  rcases Nat.lt_trichotomy a b with h | h | h
  · rw [if_pos h, if_neg (Nat.lt_asymm h)]
  · subst h; rfl
  · rw [if_neg (Nat.lt_asymm h), if_pos h]

theorem nextLevel_getD (hp : Nat → Nat → Nat) :
    ∀ (l : List Nat) (j : Nat), 2 * j + 1 < l.length →
      (nextLevel hp l).getD j 0
        = hashPair hp (l.getD (2 * j) 0) (l.getD (2 * j + 1) 0)
  | [], j, h => by simp at h
  | [_], j, h => by simp only [List.length_singleton] at h; omega
  | a :: b :: rest, 0, _ => by simp [nextLevel]
  | a :: b :: rest, j + 1, h => by
      have hh : 2 * j + 1 < rest.length := by
        simp only [List.length_cons] at h; omega
      have ih := nextLevel_getD hp rest j hh
      have g1 : (a :: b :: rest).getD (2 * (j + 1)) 0 = rest.getD (2 * j) 0 := by
        rw [show 2 * (j + 1) = 2 * j + 1 + 1 from by ring]
        rw [List.getD_cons_succ, List.getD_cons_succ]
      have g2 : (a :: b :: rest).getD (2 * (j + 1) + 1) 0
          = rest.getD (2 * j + 1) 0 := by
        rw [show 2 * (j + 1) + 1 = 2 * j + 1 + 1 + 1 from by ring]
        rw [List.getD_cons_succ, List.getD_cons_succ]
      simp only [nextLevel]
      rw [List.getD_cons_succ]
      rw [g1, g2]
      exact ih

theorem nextLevel_getD_last (hp : Nat → Nat → Nat) :
    ∀ (l : List Nat) (j : Nat), l.length = 2 * j + 1 →
      (nextLevel hp l).getD j 0 = l.getD (2 * j) 0
  | [], j, h => by simp at h
  | [a], j, h => by
      have : j = 0 := by simp at h; omega
      subst this
      simp [nextLevel]
  | a :: b :: rest, 0, h => by simp at h
  | a :: b :: rest, j + 1, h => by
      have hh : rest.length = 2 * j + 1 := by
        simp only [List.length_cons] at h; omega
      have ih := nextLevel_getD_last hp rest j hh
      have g1 : (a :: b :: rest).getD (2 * (j + 1)) 0 = rest.getD (2 * j) 0 := by
        rw [show 2 * (j + 1) = 2 * j + 1 + 1 from by ring]
        rw [List.getD_cons_succ, List.getD_cons_succ]
      simp only [nextLevel]
      rw [List.getD_cons_succ]
      rw [g1]
      exact ih

/-- Folding the leaf at index `i` through the proof generated for index
`i` recomputes the tree root (fuel-indexed induction along the levels of
the tree). -/
theorem foldPath (hp : Nat → Nat → Nat) :
    ∀ (fuel : Nat) (l : List Nat), l.length ≤ fuel → ∀ i : Nat, i < l.length →
      processProof hp (l.getD i 0) (getProofFuel hp fuel l i)
        = buildRootAux hp fuel l := by
  intro fuel
  induction fuel with
  | zero => intro l hl i hi; omega
  | succ n ih =>
    intro l hl i hi
    match l with
    | [] => simp at hi
    | [a] =>
        have : i = 0 := by simp at hi; omega
        subst this
        simp [getProofFuel, processProof, buildRootAux]
    | a :: b :: rest =>
        have hnl : (nextLevel hp (a :: b :: rest)).length
            = ((a :: b :: rest).length + 1) / 2 := nextLevel_length hp _
        have hlen : (a :: b :: rest).length = rest.length + 2 := by simp
        have hfuel : (nextLevel hp (a :: b :: rest)).length ≤ n := by
          rw [hnl, hlen]
          rw [hlen] at hl
          omega
        have hinext : i / 2 < (nextLevel hp (a :: b :: rest)).length := by
          rw [hnl]
          rw [hlen] at hi ⊢
          omega
        have IH := ih (nextLevel hp (a :: b :: rest)) hfuel (i / 2) hinext
        have hroot : buildRootAux hp (n + 1) (a :: b :: rest)
            = buildRootAux hp n (nextLevel hp (a :: b :: rest)) := by
          rw [buildRootAux]
        rw [hroot]
        simp only [getProofFuel]
        by_cases hpar : i % 2 = 1
        · -- odd index: the sibling is at `i - 1` and always exists
          have hi1 : 1 ≤ i := by omega
          have hsib : i - 1 < (a :: b :: rest).length := by omega
          rw [if_pos hpar, if_pos hsib]
          simp only [List.singleton_append, processProof, List.foldl_cons]
          have hj : 2 * (i / 2) = i - 1 := by omega
          have hj1 : 2 * (i / 2) + 1 = i := by omega
          have hpairmem : 2 * (i / 2) + 1 < (a :: b :: rest).length := by omega
          have hnode := nextLevel_getD hp (a :: b :: rest) (i / 2) hpairmem
          rw [hj1, hj] at hnode
          rw [hashPair_comm, ← hnode]
          exact IH
        · -- even index: the sibling is at `i + 1` when it exists
          have hpar0 : i % 2 = 0 := by omega
          rw [if_neg hpar]
          by_cases hsib : i + 1 < (a :: b :: rest).length
          · rw [if_pos hsib]
            simp only [List.singleton_append, processProof, List.foldl_cons]
            have hj : 2 * (i / 2) = i := by omega
            have hj1 : 2 * (i / 2) + 1 = i + 1 := by omega
            have hpairmem : 2 * (i / 2) + 1 < (a :: b :: rest).length := by omega
            have hnode := nextLevel_getD hp (a :: b :: rest) (i / 2) hpairmem
            rw [hj1, hj] at hnode
            rw [← hnode]
            exact IH
          · -- unpaired last node of an odd level: promoted unchanged
            rw [if_neg hsib]
            simp only [List.nil_append]
            have hlast : (a :: b :: rest).length = 2 * (i / 2) + 1 := by omega
            have hnode := nextLevel_getD_last hp (a :: b :: rest) (i / 2) hlast
            have hj : 2 * (i / 2) = i := by omega
            rw [hj] at hnode
            rw [← hnode]
            exact IH

theorem foldPathRoot (hp : Nat → Nat → Nat) (l : List Nat) (i : Nat)
    (hi : i < l.length) :
    processProof hp (l.getD i 0) (getProofAux hp l i) = buildRoot hp l :=
  foldPath hp l.length l le_rfl i hi

/-- C1: for every non-empty list of transactions and every transaction
`t` in it, building the Merkle tree over the leaf digests, generating
the inclusion proof for `t` (`ProofGenerator.generateProof`), and
folding `t`'s leaf digest through that proof with sorted-pair hashing
yields the tree root: both the relayer's `verifyProof` and the
ledger-side `MerkleProof.verify` accept `t` against the root built from
`txs`, for any hash function `hp` and leaf digest function `lh`. -/
theorem c1_generated_proof_verifies (hp : Nat → Nat → Nat) (lh : Tx → Nat)
    (txs : List Tx) (t : Tx) (hmem : t ∈ txs) :
    tsVerifyProof hp (lh t) (generateProof hp lh txs t).1
      (generateProof hp lh txs t).2 = true
    ∧ solMerkleVerify hp (generateProof hp lh txs t).1
      (generateProof hp lh txs t).2 (lh t) = true := by
  have hmem2 : lh t ∈ txs.map lh := List.mem_map_of_mem lh hmem
  have hidx : (txs.map lh).indexOf (lh t) < (txs.map lh).length :=
    List.indexOf_lt_length.mpr hmem2
  have hget : (txs.map lh).getD ((txs.map lh).indexOf (lh t)) 0 = lh t := by
    rw [List.getD_eq_getElem _ _ hidx]
    exact List.getElem_indexOf hidx
  have hfold := foldPathRoot hp (txs.map lh) ((txs.map lh).indexOf (lh t)) hidx
  rw [hget] at hfold
  constructor <;> simp [tsVerifyProof, solMerkleVerify, generateProof, hfold]

def hpW : Nat → Nat → Nat := fun a b => (a + b) * (a + b + 1) / 2 + b

def lhW : Tx → Nat := fun t => t.amount + 100 * t.nonce

def txW1 : Tx := ⟨1, 2, 3, 1, 10, 20, 5⟩

def txW2 : Tx := ⟨4, 5, 6, 2, 10, 20, 7⟩

def txW3 : Tx := ⟨8, 9, 1, 3, 10, 20, 9⟩

theorem c1_generated_proof_verifies_witness :
    txW2 ∈ [txW1, txW2, txW3]
    ∧ (tsVerifyProof hpW (lhW txW2)
        (generateProof hpW lhW [txW1, txW2, txW3] txW2).1
        (generateProof hpW lhW [txW1, txW2, txW3] txW2).2 = true
      ∧ solMerkleVerify hpW
        (generateProof hpW lhW [txW1, txW2, txW3] txW2).1
        (generateProof hpW lhW [txW1, txW2, txW3] txW2).2 (lhW txW2) = true) :=
  ⟨by decide, c1_generated_proof_verifies hpW lhW [txW1, txW2, txW3] txW2 (by decide)⟩

/-! ### Batch proofs (C9) -/

/-- Looking a key up in a JS Map built by iterating `set key value` over
a keyed list: when the keys are distinct, the unique entry for the key
is found. -/
theorem keyedMap_getLast {β : Type} (f : Tx → β) :
    ∀ (txs : List Tx) (t : Tx), t ∈ txs → (txs.map Tx.nonce).Nodup →
      ((txs.map (fun u => (u.nonce, f u))).filter
        (fun p => p.1 == t.nonce)).getLast? = some (t.nonce, f t)
  | [], t, hmem, _ => absurd hmem (by simp)
  | u :: rest, t, hmem, hnd => by
      simp only [List.map_cons, List.nodup_cons] at hnd
      rcases List.mem_cons.mp hmem with heq | hmem2
      · subst heq
        have htail : (rest.map (fun v => (v.nonce, f v))).filter
            (fun p => p.1 == t.nonce) = [] := by
          apply List.filter_eq_nil_iff.mpr
          intro p hp
          obtain ⟨v, hv, rfl⟩ := List.mem_map.mp hp
          intro hb
          have hvn : v.nonce = t.nonce := by simpa using hb
          exact hnd.1 (hvn ▸ List.mem_map_of_mem Tx.nonce hv)
        simp [List.filter_cons, htail]
      · have hne : (u.nonce == t.nonce) = false := by
          apply beq_eq_false_iff_ne.mpr
          intro hun
          apply hnd.1
          rw [hun]
          exact List.mem_map_of_mem Tx.nonce hmem2
        simp only [List.map_cons, List.filter_cons, hne]
        simp only [Bool.false_eq_true, if_false]
        exact keyedMap_getLast f rest t hmem2 hnd.2

/-- C9 counterexample: two transactions sharing nonce `7`.  The batch
path keys its Map by nonce, so the second transaction's proof
overwrites the first's; for the first transaction the batch path hands
out the proof `[0]` which rejects, while the single-transaction path
produces `[1]` which accepts — the two paths do not have identical
verification outcomes on a shared-nonce batch. -/
def lh9 : Tx → Nat := fun t => t.amount

def t91 : Tx := ⟨0, 0, 0, 7, 1, 2, 0⟩

def t92 : Tx := ⟨0, 0, 1, 7, 1, 2, 0⟩

theorem c9_shared_nonce_counterexample :
    t91 ∈ [t91, t92]
    ∧ mapGet (generateBatchProofs hpW lh9 [t91, t92]) t91.nonce = some ([0], 2)
    ∧ generateProof hpW lh9 [t91, t92] t91 = ([1], 2)
    ∧ tsVerifyProof hpW (lh9 t91) [0] 2 = false
    ∧ tsVerifyProof hpW (lh9 t91) [1] 2 = true := by decide

/-- C9 (amended): on every batch in which no two transactions share a
nonce, the batch path `generateBatchProofs` yields for each transaction
`t` exactly the proof and root that the single-transaction path
`generateProof` yields, so batch verification accepts exactly the
leaves that repeated single-leaf verification accepts. -/
theorem c9_batch_matches_single (hp : Nat → Nat → Nat) (lh : Tx → Nat)
    (txs : List Tx) (t : Tx) (hmem : t ∈ txs)
    (hnd : (txs.map Tx.nonce).Nodup) :
    mapGet (generateBatchProofs hp lh txs) t.nonce
      = some (generateProof hp lh txs t) := by
  simp only [generateBatchProofs, mapGet]
  rw [keyedMap_getLast
    (fun u => (getProofAux hp (txs.map lh) ((txs.map lh).indexOf (lh u)),
      buildRoot hp (txs.map lh))) txs t hmem hnd]
  simp [generateProof]

theorem c9_batch_matches_single_witness :
    txW1 ∈ [txW1, txW2]
    ∧ ([txW1, txW2].map Tx.nonce).Nodup
    ∧ mapGet (generateBatchProofs hpW lhW [txW1, txW2]) txW1.nonce
        = some (generateProof hpW lhW [txW1, txW2] txW1) :=
  ⟨by decide, by decide,
    c9_batch_matches_single hpW lhW [txW1, txW2] txW1 (by decide) (by decide)⟩

/-! ## Leaf hash encodings (C2)

The relayer's `ProofGenerator.generateLeafHash` concatenates, as bytes:
the two 20-byte addresses decoded from their 40-hex-digit strings, and
the five numeric fields rendered with `toString(16).padStart(64, '0')`
and hex-decoded to 32 bytes each.  `MessageLib.generateLeafHash` is
`keccak256(abi.encodePacked(...))` of the same seven fields, i.e. the
20-byte and 32-byte big-endian representations.  Bytes are modelled as
naturals below 256, nibbles as naturals below 16. -/

/-- Fixed-width big-endian base-`b` digits of `n` (width `k`). -/
def beDigits (b : Nat) : Nat → Nat → List Nat
  | 0, _ => []
  | k + 1, n => beDigits b k (n / b) ++ [n % b]

theorem beDigits_length (b : Nat) : ∀ (k n : Nat), (beDigits b k n).length = k
  | 0, _ => rfl
  | k + 1, n => by simp [beDigits, beDigits_length b k]

theorem beDigits_zero (b : Nat) : ∀ k : Nat, beDigits b k 0 = List.replicate k 0
  | 0 => rfl
  | k + 1 => by
      show beDigits b k (0 / b) ++ [0 % b] = _
      rw [Nat.zero_div, Nat.zero_mod, beDigits_zero b k, List.replicate_succ']

/-- JS `toString(16)`: big-endian hex digits, `"0"` for zero. -/
def toHexNibbles (n : Nat) : List Nat :=
  if n = 0 then [0] else (Nat.digits 16 n).reverse

/-- JS `padStart(k, '0')` on a digit string. -/
def padStart (k : Nat) (l : List Nat) : List Nat :=
  List.replicate (k - l.length) 0 ++ l

/-- `Buffer.from(hexString, 'hex')`: consecutive nibble pairs become
bytes. -/
def pairNibbles : List Nat → List Nat
  | a :: b :: rest => (16 * a + b) :: pairNibbles rest
  | _ => []

theorem padStart_revDigits (b : Nat) (hb : 1 < b) :
    ∀ (k n : Nat), n < b ^ k →
      padStart k ((Nat.digits b n).reverse) = beDigits b k n
  | 0, n, h => by
      have hn : n = 0 := by
        have := h
        simp only [pow_zero] at this
        omega
      subst hn
      simp [padStart, beDigits]
  | k + 1, n, h => by
      by_cases hn : n = 0
      · subst hn
        simp [padStart, beDigits_zero]
      · have hdig : Nat.digits b n = n % b :: Nat.digits b (n / b) :=
          Nat.digits_def' hb (Nat.pos_of_ne_zero hn)
        have hdiv : n / b < b ^ k := by
          have hlt : n < b * b ^ k := by rw [← pow_succ']; exact h
          exact Nat.div_lt_of_lt_mul hlt
        have ih := padStart_revDigits b hb k (n / b) hdiv
        rw [hdig]
        simp only [List.reverse_cons]
        unfold padStart at ih ⊢
        simp only [List.length_append, List.length_reverse, List.length_singleton]
        have harith : k + 1 - ((Nat.digits b (n / b)).length + 1)
            = k - (Nat.digits b (n / b)).length := by omega
        rw [harith, ← List.append_assoc]
        rw [show (Nat.digits b (n / b)).length
            = (Nat.digits b (n / b)).reverse.length from (List.length_reverse _).symm]
        rw [ih]
        rfl

theorem toHexNibbles_pad (k n : Nat) (hk : 0 < k) (h : n < 16 ^ k) :
    padStart k (toHexNibbles n) = beDigits 16 k n := by
  unfold toHexNibbles
  by_cases hn : n = 0
  · subst hn
    rw [if_pos rfl, beDigits_zero]
    unfold padStart
    simp only [List.length_singleton]
    obtain ⟨j, rfl⟩ : ∃ j, k = j + 1 := ⟨k - 1, by omega⟩
    rw [List.replicate_succ']
    simp
  · rw [if_neg hn]
    exact padStart_revDigits 16 (by norm_num) k n h

theorem pairNibbles_append : ∀ (xs ys : List Nat), xs.length % 2 = 0 →
    pairNibbles (xs ++ ys) = pairNibbles xs ++ pairNibbles ys
  | [], ys, _ => by simp [pairNibbles]
  | [a], ys, h => by simp at h
  | a :: b :: rest, ys, h => by
      have hr : rest.length % 2 = 0 := by
        simp only [List.length_cons] at h; omega
      simp only [List.cons_append, pairNibbles]
      exact congrArg (List.cons (16 * a + b)) (pairNibbles_append rest ys hr)

theorem pairNibbles_beDigits : ∀ (k n : Nat),
    pairNibbles (beDigits 16 (2 * k) n) = beDigits 256 k n
  | 0, n => by simp [pairNibbles, beDigits]
  | k + 1, n => by
      rw [show 2 * (k + 1) = 2 * k + 1 + 1 from by ring]
      show pairNibbles ((beDigits 16 (2 * k) (n / 16 / 16) ++ [n / 16 % 16])
          ++ [n % 16]) = beDigits 256 (k + 1) n
      rw [List.append_assoc]
      rw [pairNibbles_append _ _ (by rw [beDigits_length]; omega)]
      rw [pairNibbles_beDigits k (n / 16 / 16)]
      have hdd : n / 16 / 16 = n / 256 := by
        rw [Nat.div_div_eq_div_mul]
      have hm : 16 * (n / 16 % 16) + n % 16 = n % 256 := by omega
      simp only [pairNibbles]
      rw [hdd, hm]
      rfl

/-- One 32-byte word of the relayer encoding:
`Buffer.from(n.toString(16).padStart(64, '0'), 'hex')`. -/
def tsWord (n : Nat) : List Nat := pairNibbles (padStart 64 (toHexNibbles n))

/-- One 20-byte address of the relayer encoding:
`Buffer.from(addr.slice(2), 'hex')` where `addr` is the canonical
`0x`-prefixed 40-hex-digit address string. -/
def tsAddr (a : Nat) : List Nat := pairNibbles (padStart 40 (toHexNibbles a))

/-- `abi.encodePacked` of a `uint256`: 32 bytes big-endian. -/
def encodePackedUint256 (n : Nat) : List Nat := beDigits 256 32 n

/-- `abi.encodePacked` of an `address`: 20 bytes big-endian. -/
def encodePackedAddress (a : Nat) : List Nat := beDigits 256 20 a

theorem tsWord_eq (n : Nat) (h : n < 2 ^ 256) :
    tsWord n = encodePackedUint256 n := by
  have h16 : n < 16 ^ 64 := by
    have e : (16 : Nat) ^ 64 = 2 ^ 256 := by
      rw [show (16 : Nat) = 2 ^ 4 from by norm_num, ← pow_mul]
    rw [e]
    exact h
  unfold tsWord encodePackedUint256
  rw [toHexNibbles_pad 64 n (by norm_num) h16]
  rw [show (64 : Nat) = 2 * 32 from by norm_num]
  exact pairNibbles_beDigits 32 n

theorem tsAddr_eq (a : Nat) (h : a < 2 ^ 160) :
    tsAddr a = encodePackedAddress a := by
  have h16 : a < 16 ^ 40 := by
    have e : (16 : Nat) ^ 40 = 2 ^ 160 := by
      rw [show (16 : Nat) = 2 ^ 4 from by norm_num, ← pow_mul]
    rw [e]
    exact h
  unfold tsAddr encodePackedAddress
  rw [toHexNibbles_pad 40 a (by norm_num) h16]
  rw [show (40 : Nat) = 2 * 20 from by norm_num]
  exact pairNibbles_beDigits 20 a

/-- Relayer `ProofGenerator.generateLeafHash`: keccak256 of the
concatenated fixed-width fields (`kec` stands for keccak256 on byte
strings). -/
def tsEncodeTx (tx : Tx) : List Nat :=
  tsAddr tx.sender ++ tsAddr tx.recipient ++ tsWord tx.amount ++ tsWord tx.nonce
    ++ tsWord tx.sourceChainId ++ tsWord tx.destinationChainId
    ++ tsWord tx.timestamp

def tsGenerateLeafHash (kec : List Nat → Nat) (tx : Tx) : Nat :=
  kec (tsEncodeTx tx)

/-- `abi.encodePacked(sender, recipient, amount, nonce, sourceChainId,
destinationChainId, timestamp)` as in `MessageLib.generateLeafHash`. -/
def messageLibEncode (sender recipient amount nonce srcId dstId ts : Nat) :
    List Nat :=
  encodePackedAddress sender ++ encodePackedAddress recipient
    ++ encodePackedUint256 amount ++ encodePackedUint256 nonce
    ++ encodePackedUint256 srcId ++ encodePackedUint256 dstId
    ++ encodePackedUint256 ts

/-- On-chain `MessageLib.generateLeafHash`. -/
def messageLibLeafHash (kec : List Nat → Nat)
    (sender recipient amount nonce srcId dstId ts : Nat) : Nat :=
  kec (messageLibEncode sender recipient amount nonce srcId dstId ts)

/-- C2: for every transaction whose addresses are 20-byte values and
whose five numeric fields fit in 256 bits, the relayer's
`generateLeafHash` byte encoding equals Solidity's `abi.encodePacked`
byte for byte, and hence both sides compute the identical leaf digest
for any keccak256 function `kec`.  (The `number`-typed fields are
modelled as exact integers, as the TypeScript code assumes.) -/
theorem c2_leaf_hash_agreement (kec : List Nat → Nat) (tx : Tx)
    (hs : tx.sender < 2 ^ 160) (hr : tx.recipient < 2 ^ 160)
    (ha : tx.amount < 2 ^ 256) (hn : tx.nonce < 2 ^ 256)
    (hsc : tx.sourceChainId < 2 ^ 256) (hdc : tx.destinationChainId < 2 ^ 256)
    (ht : tx.timestamp < 2 ^ 256) :
    tsEncodeTx tx = messageLibEncode tx.sender tx.recipient tx.amount tx.nonce
        tx.sourceChainId tx.destinationChainId tx.timestamp
    ∧ tsGenerateLeafHash kec tx = messageLibLeafHash kec tx.sender tx.recipient
        tx.amount tx.nonce tx.sourceChainId tx.destinationChainId tx.timestamp := by
  have henc : tsEncodeTx tx = messageLibEncode tx.sender tx.recipient tx.amount
      tx.nonce tx.sourceChainId tx.destinationChainId tx.timestamp := by
    unfold tsEncodeTx messageLibEncode
    rw [tsAddr_eq _ hs, tsAddr_eq _ hr, tsWord_eq _ ha, tsWord_eq _ hn,
      tsWord_eq _ hsc, tsWord_eq _ hdc, tsWord_eq _ ht]
  refine ⟨henc, ?_⟩
  unfold tsGenerateLeafHash messageLibLeafHash
  rw [henc]

def kecW : List Nat → Nat := fun l => l.foldl (fun a b => 256 * a + b) 0

theorem c2_leaf_hash_agreement_witness :
    (txW1.sender < 2 ^ 160 ∧ txW1.recipient < 2 ^ 160 ∧ txW1.amount < 2 ^ 256
      ∧ txW1.nonce < 2 ^ 256 ∧ txW1.sourceChainId < 2 ^ 256
      ∧ txW1.destinationChainId < 2 ^ 256 ∧ txW1.timestamp < 2 ^ 256)
    ∧ (tsEncodeTx txW1 = messageLibEncode txW1.sender txW1.recipient txW1.amount
        txW1.nonce txW1.sourceChainId txW1.destinationChainId txW1.timestamp
      ∧ tsGenerateLeafHash kecW txW1 = messageLibLeafHash kecW txW1.sender
        txW1.recipient txW1.amount txW1.nonce txW1.sourceChainId
        txW1.destinationChainId txW1.timestamp) :=
  ⟨⟨by norm_num [txW1], by norm_num [txW1], by norm_num [txW1],
    by norm_num [txW1], by norm_num [txW1], by norm_num [txW1],
    by norm_num [txW1]⟩,
    c2_leaf_hash_agreement kecW txW1 (by norm_num [txW1]) (by norm_num [txW1])
      (by norm_num [txW1]) (by norm_num [txW1]) (by norm_num [txW1])
      (by norm_num [txW1]) (by norm_num [txW1])⟩

/-! ## BridgeValidator (`contracts/BridgeValidator.sol`)

Addresses are naturals (`0` is the zero address).  The mappings
`validRoots` and `usedNonces` are modelled as membership in lists (an
entry is `true` iff the key is a member); `revert` is modelled as
`Except.error`, under which the pre-state is retained. -/

inductive VErr where
  | invalidProof
  | nonceAlreadyUsed (nonce : Nat)
  | invalidRoot
  | rootUpdateTooSoon
  | invalidRelayer
  | enforcedPause
  | notOwner
  | zeroAddress
  | invalidRecipient
  | insufficientAmount
  | exceedsMaximum
  | transactionAlreadyProcessed
  | transferFailed
deriving DecidableEq

structure VState where
  validRoots : List Nat
  usedNonces : List Nat
  validatedTransactions : Nat
  lastRootUpdate : Nat
  relayer : Nat
  owner : Nat
  paused : Bool
deriving DecidableEq

/-- `MIN_ROOT_UPDATE_DELAY = 1 minutes`. -/
def MIN_ROOT_UPDATE_DELAY : Nat := 60

/-- `BridgeValidator.validateTransaction`: nonce replay check, root
check, leaf recomputation via `MessageLib.generateLeafHash`, Merkle
verification, then the nonce is recorded and the counter bumped. -/
def validateTransaction (hp : Nat → Nat → Nat) (kec : List Nat → Nat)
    (s : VState) (sender recipient amount nonce srcId dstId ts : Nat)
    (proof : List Nat) (root : Nat) : Except VErr (VState × Bool) :=
  if s.paused then .error .enforcedPause
  else if nonce ∈ s.usedNonces then .error (.nonceAlreadyUsed nonce)
  else if root ∉ s.validRoots then .error .invalidRoot
  else if solMerkleVerify hp proof root
      (messageLibLeafHash kec sender recipient amount nonce srcId dstId ts) then
    .ok ({ s with
            usedNonces := nonce :: s.usedNonces,
            validatedTransactions := s.validatedTransactions + 1 }, true)
  else .error .invalidProof

/-- EVM revert semantics: on `error` the pre-state is kept. -/
def execValidate (hp : Nat → Nat → Nat) (kec : List Nat → Nat) (s : VState)
    (sender recipient amount nonce srcId dstId ts : Nat) (proof : List Nat)
    (root : Nat) : VState :=
  match validateTransaction hp kec s sender recipient amount nonce srcId dstId
      ts proof root with
  | .ok (s1, _) => s1
  | .error _ => s

/-- `BridgeValidator.registerRoot` (modifier order: `onlyRelayer`,
`whenNotPaused`, then the rate-limit check; no duplicate check). -/
def registerRoot (s : VState) (caller now root : Nat) : Except VErr VState :=
  if caller ≠ s.relayer then .error .invalidRelayer
  else if s.paused then .error .enforcedPause
  else if now < s.lastRootUpdate + MIN_ROOT_UPDATE_DELAY then
    .error .rootUpdateTooSoon
  else .ok { s with validRoots := root :: s.validRoots, lastRootUpdate := now }

/-- `BridgeValidator.batchRegisterRoots`. -/
def batchRegisterRoots (s : VState) (caller now : Nat) (roots : List Nat) :
    Except VErr VState :=
  if caller ≠ s.relayer then .error .invalidRelayer
  else if s.paused then .error .enforcedPause
  else if now < s.lastRootUpdate + MIN_ROOT_UPDATE_DELAY then
    .error .rootUpdateTooSoon
  else .ok { s with validRoots := roots ++ s.validRoots, lastRootUpdate := now }

/-- `BridgeValidator.invalidateRoot` (owner only): sets
`validRoots[root] = false`, modelled by removing the root. -/
def invalidateRoot (s : VState) (caller root : Nat) : Except VErr VState :=
  if caller ≠ s.owner then .error .notOwner
  else .ok { s with validRoots := s.validRoots.filter (fun x => x != root) }

def pauseValidator (s : VState) (caller : Nat) : Except VErr VState :=
  if caller ≠ s.owner then .error .notOwner else .ok { s with paused := true }

def unpauseValidator (s : VState) (caller : Nat) : Except VErr VState :=
  if caller ≠ s.owner then .error .notOwner else .ok { s with paused := false }

def updateRelayer (s : VState) (caller newRelayer : Nat) : Except VErr VState :=
  if caller ≠ s.owner then .error .notOwner
  else if newRelayer = 0 then .error .zeroAddress
  else .ok { s with relayer := newRelayer }

/-- `BridgeValidator.isRootValid`. -/
def isRootValid (s : VState) (root : Nat) : Bool :=
  decide (root ∈ s.validRoots)

/-- `BridgeValidator.isNonceUsed`. -/
def isNonceUsed (s : VState) (nonce : Nat) : Bool :=
  decide (nonce ∈ s.usedNonces)

/-- Keep the pre-state on revert. -/
def orKeep (s : VState) : Except VErr VState → VState
  | .ok s1 => s1
  | .error _ => s

/-- The external state-changing operations of `BridgeValidator`. -/
inductive VOp where
  | register (caller now root : Nat)
  | batchRegister (caller now : Nat) (roots : List Nat)
  | validate (sender recipient amount nonce srcId dstId ts : Nat)
      (proof : List Nat) (root : Nat)
  | invalidate (caller root : Nat)
  | pauseOp (caller : Nat)
  | unpauseOp (caller : Nat)
  | setRelayer (caller newRelayer : Nat)

def stepV (hp : Nat → Nat → Nat) (kec : List Nat → Nat) (s : VState) :
    VOp → VState
  | .register caller now root => orKeep s (registerRoot s caller now root)
  | .batchRegister caller now roots =>
      orKeep s (batchRegisterRoots s caller now roots)
  | .validate sender recipient amount nonce srcId dstId ts proof root =>
      execValidate hp kec s sender recipient amount nonce srcId dstId ts
        proof root
  | .invalidate caller root => orKeep s (invalidateRoot s caller root)
  | .pauseOp caller => orKeep s (pauseValidator s caller)
  | .unpauseOp caller => orKeep s (unpauseValidator s caller)
  | .setRelayer caller newRelayer => orKeep s (updateRelayer s caller newRelayer)

/-- With a used nonce, `validateTransaction` reverts before any other
check: `EnforcedPause` when paused, else `NonceAlreadyUsed`. -/
theorem validateTransaction_used (hp : Nat → Nat → Nat) (kec : List Nat → Nat)
    (s : VState) (sender recipient amount nonce srcId dstId ts : Nat)
    (proof : List Nat) (root : Nat) (hused : nonce ∈ s.usedNonces) :
    validateTransaction hp kec s sender recipient amount nonce srcId dstId ts
        proof root
      = .error (if s.paused then .enforcedPause else .nonceAlreadyUsed nonce) := by
  unfold validateTransaction
  by_cases hps : s.paused
  · simp [hps]
  · simp [hps, hused]

/-- C3: in every `BridgeValidator` state in which nonce `n` is recorded
in `usedNonces`, a `validateTransaction` call with nonce `n` rejects
regardless of the sender, recipient, amount, timestamp, proof and root
arguments — even a cryptographically valid proof — leaving
`usedNonces`, `validRoots` and `validatedTransactions` (the whole
state) unchanged; whenever the contract is not paused the revert reason
is `NonceAlreadyUsed(n)`. -/
theorem c3_used_nonce_always_rejected (hp : Nat → Nat → Nat)
    (kec : List Nat → Nat) (s : VState)
    (sender recipient amount nonce srcId dstId ts : Nat) (proof : List Nat)
    (root : Nat) (hused : nonce ∈ s.usedNonces) :
    (validateTransaction hp kec s sender recipient amount nonce srcId dstId ts
        proof root).isOk = false
    ∧ execValidate hp kec s sender recipient amount nonce srcId dstId ts proof
        root = s
    ∧ (s.paused = false →
        validateTransaction hp kec s sender recipient amount nonce srcId dstId
            ts proof root = .error (.nonceAlreadyUsed nonce)) := by
  have h := validateTransaction_used hp kec s sender recipient amount nonce
    srcId dstId ts proof root hused
  refine ⟨?_, ?_, ?_⟩
  · rw [h]; rfl
  · unfold execValidate
    rw [h]
  · intro hps
    rw [h, hps]
    rfl

def sW : VState :=
  { validRoots := [5], usedNonces := [3], validatedTransactions := 1,
    lastRootUpdate := 0, relayer := 7, owner := 9, paused := false }

theorem c3_used_nonce_always_rejected_witness :
    3 ∈ sW.usedNonces
    ∧ ((validateTransaction hpW kecW sW 1 2 5 3 10 20 99 [] 5).isOk = false
      ∧ execValidate hpW kecW sW 1 2 5 3 10 20 99 [] 5 = sW
      ∧ (sW.paused = false →
          validateTransaction hpW kecW sW 1 2 5 3 10 20 99 [] 5
            = .error (.nonceAlreadyUsed 3))) :=
  ⟨by decide,
    c3_used_nonce_always_rejected hpW kecW sW 1 2 5 3 10 20 99 [] 5 (by decide)⟩

/-- C4 counterexample: `registerRoot` has no duplicate check.  In the
state `sW` the root `5` is already registered (`validRoots[5]` is
true), the contract is not paused and the rate-limit delay has passed;
a `registerRoot(5)` call from the relayer at time `100` succeeds
instead of rejecting the duplicate. -/
theorem c4_duplicate_root_accepted_counterexample :
    5 ∈ sW.validRoots
    ∧ (registerRoot sW sW.relayer 100 5).isOk = true := by decide

/-- C4 (amended): a `registerRoot(root)` call from the authorized
relayer for an already-registered root is rejected only by the
rate-limit (`RootUpdateTooSoon` within `MIN_ROOT_UPDATE_DELAY` of the
last update, state unchanged — as it would be for any root); once the
delay has passed (and the contract is not paused) the duplicate
registration succeeds but is a no-op on the root set: `validRoots`
holds exactly the same roots afterwards, so root state is never
double-counted. -/
theorem c4_duplicate_root_registration (s : VState) (now root : Nat)
    (hdup : root ∈ s.validRoots) :
    (now < s.lastRootUpdate + MIN_ROOT_UPDATE_DELAY →
      (registerRoot s s.relayer now root).isOk = false
      ∧ orKeep s (registerRoot s s.relayer now root) = s
      ∧ (s.paused = false →
          registerRoot s s.relayer now root = .error .rootUpdateTooSoon))
    ∧ (s.paused = false → s.lastRootUpdate + MIN_ROOT_UPDATE_DELAY ≤ now →
      ∃ s1, registerRoot s s.relayer now root = .ok s1
        ∧ ∀ x, (x ∈ s1.validRoots ↔ x ∈ s.validRoots)) := by
  constructor
  · intro hsoon
    by_cases hps : s.paused
    · have h : registerRoot s s.relayer now root = .error .enforcedPause := by
        unfold registerRoot
        simp [hps]
      rw [h]
      exact ⟨rfl, rfl, fun hf => absurd hps (by simp [hf])⟩
    · have h : registerRoot s s.relayer now root = .error .rootUpdateTooSoon := by
        unfold registerRoot
        simp [hps, hsoon]
      rw [h]
      exact ⟨rfl, rfl, fun _ => rfl⟩
  · intro hps hdelay
    refine ⟨{ s with validRoots := root :: s.validRoots, lastRootUpdate := now },
      ?_, ?_⟩
    · unfold registerRoot
      simp [hps, Nat.not_lt.mpr hdelay]
    · intro x
      simp only [List.mem_cons]
      constructor
      · rintro (rfl | hx2)
        · exact hdup
        · exact hx2
      · exact Or.inr

theorem c4_duplicate_root_registration_witness :
    5 ∈ sW.validRoots
    ∧ ((100 < sW.lastRootUpdate + MIN_ROOT_UPDATE_DELAY →
        (registerRoot sW sW.relayer 100 5).isOk = false
        ∧ orKeep sW (registerRoot sW sW.relayer 100 5) = sW
        ∧ (sW.paused = false →
            registerRoot sW sW.relayer 100 5 = .error .rootUpdateTooSoon))
      ∧ (sW.paused = false → sW.lastRootUpdate + MIN_ROOT_UPDATE_DELAY ≤ 100 →
        ∃ s1, registerRoot sW sW.relayer 100 5 = .ok s1
          ∧ ∀ x, (x ∈ s1.validRoots ↔ x ∈ sW.validRoots))) :=
  ⟨by decide, c4_duplicate_root_registration sW 100 5 (by decide)⟩

/-- Shape of a successful `validateTransaction`: the nonce is recorded,
the counter bumped, everything else untouched, and `true` returned. -/
theorem validateTransaction_ok_shape (hp : Nat → Nat → Nat)
    (kec : List Nat → Nat) (s : VState)
    (sender recipient amount nonce srcId dstId ts : Nat) (proof : List Nat)
    (root : Nat) (p : VState × Bool)
    (h : validateTransaction hp kec s sender recipient amount nonce srcId dstId
        ts proof root = .ok p) :
    p.1 = { s with
            usedNonces := nonce :: s.usedNonces,
            validatedTransactions := s.validatedTransactions + 1 }
    ∧ p.2 = true := by
  unfold validateTransaction at h
  split_ifs at h
  all_goals first
    | exact Except.noConfusion h
    | (simp only [Except.ok.injEq] at h; subst h; exact ⟨rfl, rfl⟩)

/-- No `BridgeValidator` operation ever removes a nonce from
`usedNonces`. -/
theorem stepV_usedNonces_mono (hp : Nat → Nat → Nat) (kec : List Nat → Nat)
    (s : VState) (op : VOp) (n : Nat) (hn : n ∈ s.usedNonces) :
    n ∈ (stepV hp kec s op).usedNonces := by
  cases op with
  | register caller now root =>
      simp only [stepV]
      unfold registerRoot
      split_ifs <;> simp [orKeep, hn]
  | batchRegister caller now roots =>
      simp only [stepV]
      unfold batchRegisterRoots
      split_ifs <;> simp [orKeep, hn]
  | validate sender recipient amount nonce srcId dstId ts proof root =>
      simp only [stepV]
      unfold execValidate
      cases hv : validateTransaction hp kec s sender recipient amount nonce
          srcId dstId ts proof root with
      | error e => exact hn
      | ok p =>
          obtain ⟨s1, b⟩ := p
          have hshape := validateTransaction_ok_shape hp kec s sender recipient
            amount nonce srcId dstId ts proof root (s1, b) hv
          show n ∈ s1.usedNonces
          have h1 : s1 = { s with
              usedNonces := nonce :: s.usedNonces,
              validatedTransactions := s.validatedTransactions + 1 } := hshape.1
          rw [h1]
          exact List.mem_cons_of_mem nonce hn
  | invalidate caller root =>
      simp only [stepV]
      unfold invalidateRoot
      split_ifs <;> simp [orKeep, hn]
  | pauseOp caller =>
      simp only [stepV]
      unfold pauseValidator
      split_ifs <;> simp [orKeep, hn]
  | unpauseOp caller =>
      simp only [stepV]
      unfold unpauseValidator
      split_ifs <;> simp [orKeep, hn]
  | setRelayer caller newRelayer =>
      simp only [stepV]
      unfold updateRelayer
      split_ifs <;> simp [orKeep, hn]

/-- C10: root validity is not monotone, unlike nonce consumption.  From
any unpaused state past the rate limit, `registerRoot r` followed by the
owner-only `invalidateRoot r` yields a state where `isRootValid r` is
false and every `validateTransaction` call against root `r` rejects —
while no `BridgeValidator` operation ever removes a nonce from
`usedNonces`. -/
theorem c10_root_validity_not_monotone (hp : Nat → Nat → Nat)
    (kec : List Nat → Nat) (s : VState) (now r : Nat)
    (hps : s.paused = false)
    (hdelay : s.lastRootUpdate + MIN_ROOT_UPDATE_DELAY ≤ now) :
    isRootValid (stepV hp kec s (.register s.relayer now r)) r = true
    ∧ isRootValid (stepV hp kec (stepV hp kec s (.register s.relayer now r))
        (.invalidate s.owner r)) r = false
    ∧ (∀ sender recipient amount nonce srcId dstId ts proof,
        (validateTransaction hp kec
          (stepV hp kec (stepV hp kec s (.register s.relayer now r))
            (.invalidate s.owner r))
          sender recipient amount nonce srcId dstId ts proof r).isOk = false)
    ∧ (∀ (s3 : VState) (op : VOp) (n : Nat), n ∈ s3.usedNonces →
        n ∈ (stepV hp kec s3 op).usedNonces) := by
  have hreg : registerRoot s s.relayer now r
      = .ok { s with validRoots := r :: s.validRoots, lastRootUpdate := now } := by
    unfold registerRoot
    simp [hps, Nat.not_lt.mpr hdelay]
  have hs1 : stepV hp kec s (.register s.relayer now r)
      = { s with validRoots := r :: s.validRoots, lastRootUpdate := now } := by
    simp only [stepV]
    rw [hreg]
    rfl
  have hs2 : stepV hp kec
      ({ s with validRoots := r :: s.validRoots, lastRootUpdate := now })
      (.invalidate s.owner r)
      = { s with
          validRoots := (r :: s.validRoots).filter (fun x => x != r),
          lastRootUpdate := now } := by
    simp only [stepV]
    unfold invalidateRoot
    rw [if_neg (by simp)]
    rfl
  refine ⟨?_, ?_, ?_, ?_⟩
  · rw [hs1]
    unfold isRootValid
    simp
  · rw [hs1, hs2]
    unfold isRootValid
    simp [List.mem_filter]
  · intro sender recipient amount nonce srcId dstId ts proof
    rw [hs1, hs2]
    unfold validateTransaction
    by_cases hn : nonce ∈ s.usedNonces
    · simp [hps, hn, Except.isOk, Except.toBool]
    · simp [hps, hn, List.mem_filter, Except.isOk, Except.toBool]
  · exact fun s3 op n hn => stepV_usedNonces_mono hp kec s3 op n hn

theorem c10_root_validity_not_monotone_witness :
    (sW.paused = false ∧ sW.lastRootUpdate + MIN_ROOT_UPDATE_DELAY ≤ 100)
    ∧ (isRootValid (stepV hpW kecW sW (.register sW.relayer 100 11)) 11 = true
      ∧ isRootValid (stepV hpW kecW (stepV hpW kecW sW (.register sW.relayer 100 11))
          (.invalidate sW.owner 11)) 11 = false
      ∧ (∀ sender recipient amount nonce srcId dstId ts proof,
          (validateTransaction hpW kecW
            (stepV hpW kecW (stepV hpW kecW sW (.register sW.relayer 100 11))
              (.invalidate sW.owner 11))
            sender recipient amount nonce srcId dstId ts proof 11).isOk = false)
      ∧ (∀ (s3 : VState) (op : VOp) (n : Nat), n ∈ s3.usedNonces →
          n ∈ (stepV hpW kecW s3 op).usedNonces)) :=
  ⟨⟨rfl, by decide⟩,
    c10_root_validity_not_monotone hpW kecW sW 100 11 rfl (by decide)⟩

/-! ## BridgeToken.mint and BridgeVault.unlock (C5)

The destination ledger is modelled as the validator plus the token and
vault contracts that call it.  The value-changing effects are recorded
as `(recipient, amount, nonce)` entries (the ERC20 `_mint` and the ETH
transfer); a revert anywhere in a call aborts the whole call, so the
combined state is unchanged (the EVM transaction is the atomic unit). -/

/-- `MIN_AMOUNT = MIN_BRIDGE_AMOUNT = 0.001 ether`. -/
def MIN_AMOUNT : Nat := 1000000000000000

structure ChainState where
  validator : VState
  tokenPaused : Bool
  vaultPaused : Bool
  tokenSrcChainId : Nat
  tokenDstChainId : Nat
  vaultSrcChainId : Nat
  vaultDstChainId : Nat
  tokenProcessed : List Nat
  vaultProcessed : List Nat
  totalMinted : Nat
  totalUnlocked : Nat
  totalMintTransactions : Nat
  maxMintAmount : Nat
  vaultBalance : Nat
  mintRecords : List (Nat × Nat × Nat)
  unlockRecords : List (Nat × Nat × Nat)

/-- `BridgeToken.mint` (`whenNotPaused nonReentrant`): input checks,
leaf recomputation, duplicate check, `validator.validateTransaction`,
then mark processed, bump counters and `_mint`. -/
def mint (hp : Nat → Nat → Nat) (kec : List Nat → Nat) (c : ChainState)
    (sender recipient amount nonce ts srcTxHash : Nat) (proof : List Nat)
    (root : Nat) : Except VErr ChainState :=
  if c.tokenPaused then .error .enforcedPause
  else if recipient = 0 then .error .invalidRecipient
  else if amount < MIN_AMOUNT then .error .insufficientAmount
  else if amount > c.maxMintAmount then .error .exceedsMaximum
  else if messageLibLeafHash kec sender recipient amount nonce c.tokenSrcChainId
      c.tokenDstChainId ts ∈ c.tokenProcessed then
    .error .transactionAlreadyProcessed
  else
    match validateTransaction hp kec c.validator sender recipient amount nonce
        c.tokenSrcChainId c.tokenDstChainId ts proof root with
    | .error e => .error e
    | .ok (v1, _) =>
        .ok { c with
              validator := v1,
              tokenProcessed := messageLibLeafHash kec sender recipient amount
                nonce c.tokenSrcChainId c.tokenDstChainId ts :: c.tokenProcessed,
              totalMinted := c.totalMinted + amount,
              totalMintTransactions := c.totalMintTransactions + 1,
              mintRecords := (recipient, amount, nonce) :: c.mintRecords }

/-- `BridgeVault.unlock` (`whenNotPaused nonReentrant`): note the
swapped chain ids in the leaf (source is the other ledger for an
unlock); the final ETH transfer failing reverts the whole call. -/
def unlock (hp : Nat → Nat → Nat) (kec : List Nat → Nat) (c : ChainState)
    (sender recipient amount nonce ts : Nat) (proof : List Nat) (root : Nat) :
    Except VErr ChainState :=
  if c.vaultPaused then .error .enforcedPause
  else if recipient = 0 then .error .invalidRecipient
  else if amount = 0 then .error .insufficientAmount
  else if messageLibLeafHash kec sender recipient amount nonce c.vaultDstChainId
      c.vaultSrcChainId ts ∈ c.vaultProcessed then
    .error .transactionAlreadyProcessed
  else
    match validateTransaction hp kec c.validator sender recipient amount nonce
        c.vaultDstChainId c.vaultSrcChainId ts proof root with
    | .error e => .error e
    | .ok (v1, _) =>
        if c.vaultBalance < amount then .error .transferFailed
        else
          .ok { c with
                validator := v1,
                vaultProcessed := messageLibLeafHash kec sender recipient amount
                  nonce c.vaultDstChainId c.vaultSrcChainId ts :: c.vaultProcessed,
                totalUnlocked := c.totalUnlocked + amount,
                vaultBalance := c.vaultBalance - amount,
                unlockRecords := (recipient, amount, nonce) :: c.unlockRecords }

def isValidateOp : VOp → Bool
  | .validate _ _ _ _ _ _ _ _ _ => true
  | _ => false

/-- The calls that can touch the destination ledger: the token's mint,
the vault's unlock, and any direct call to the validator — including
`validateTransaction` itself, which has no caller restriction. -/
inductive DestOp where
  | mintCall (sender recipient amount nonce ts srcTxHash : Nat)
      (proof : List Nat) (root : Nat)
  | unlockCall (sender recipient amount nonce ts : Nat) (proof : List Nat)
      (root : Nat)
  | validatorCall (vop : VOp)

def isDirectValidate : DestOp → Bool
  | .validatorCall vop => isValidateOp vop
  | _ => false

def orKeepC (c : ChainState) : Except VErr ChainState → ChainState
  | .ok c1 => c1
  | .error _ => c

def stepDest (hp : Nat → Nat → Nat) (kec : List Nat → Nat) (c : ChainState) :
    DestOp → ChainState
  | .mintCall sender recipient amount nonce ts srcTxHash proof root =>
      orKeepC c (mint hp kec c sender recipient amount nonce ts srcTxHash proof root)
  | .unlockCall sender recipient amount nonce ts proof root =>
      orKeepC c (unlock hp kec c sender recipient amount nonce ts proof root)
  | .validatorCall vop => { c with validator := stepV hp kec c.validator vop }

/-- Every consumed nonce has a recorded value-changing effect (a mint
or an unlock) with that nonce. -/
abbrev NonceEffectInv (c : ChainState) : Prop :=
  ∀ n ∈ c.validator.usedNonces,
    (∃ p ∈ c.mintRecords, p.2.2 = n) ∨ (∃ p ∈ c.unlockRecords, p.2.2 = n)

theorem mint_ok_shape (hp : Nat → Nat → Nat) (kec : List Nat → Nat)
    (c : ChainState) (sender recipient amount nonce ts srcTxHash : Nat)
    (proof : List Nat) (root : Nat) (c1 : ChainState)
    (h : mint hp kec c sender recipient amount nonce ts srcTxHash proof root
      = .ok c1) :
    c1.validator.usedNonces = nonce :: c.validator.usedNonces
    ∧ c1.mintRecords = (recipient, amount, nonce) :: c.mintRecords
    ∧ c1.unlockRecords = c.unlockRecords := by
  unfold mint at h
  split_ifs at h
  all_goals try exact Except.noConfusion h
  cases hv : validateTransaction hp kec c.validator sender recipient amount
      nonce c.tokenSrcChainId c.tokenDstChainId ts proof root with
  | error e => rw [hv] at h; exact Except.noConfusion h
  | ok p =>
      obtain ⟨v1, b⟩ := p
      rw [hv] at h
      simp only [Except.ok.injEq] at h
      subst h
      have hshape := validateTransaction_ok_shape hp kec c.validator sender
        recipient amount nonce c.tokenSrcChainId c.tokenDstChainId ts proof
        root (v1, b) hv
      refine ⟨?_, rfl, rfl⟩
      show v1.usedNonces = nonce :: c.validator.usedNonces
      rw [show v1 = { c.validator with
          usedNonces := nonce :: c.validator.usedNonces,
          validatedTransactions := c.validator.validatedTransactions + 1 }
        from hshape.1]

theorem unlock_ok_shape (hp : Nat → Nat → Nat) (kec : List Nat → Nat)
    (c : ChainState) (sender recipient amount nonce ts : Nat)
    (proof : List Nat) (root : Nat) (c1 : ChainState)
    (h : unlock hp kec c sender recipient amount nonce ts proof root = .ok c1) :
    c1.validator.usedNonces = nonce :: c.validator.usedNonces
    ∧ c1.unlockRecords = (recipient, amount, nonce) :: c.unlockRecords
    ∧ c1.mintRecords = c.mintRecords := by
  unfold unlock at h
  split_ifs at h
  · -- ETH transfer fails: the whole call reverts
    cases hv : validateTransaction hp kec c.validator sender recipient amount
        nonce c.vaultDstChainId c.vaultSrcChainId ts proof root with
    | error e => rw [hv] at h; injection h
    | ok p =>
        obtain ⟨v1, b⟩ := p
        rw [hv] at h
        injection h
  · cases hv : validateTransaction hp kec c.validator sender recipient amount
        nonce c.vaultDstChainId c.vaultSrcChainId ts proof root with
    | error e => rw [hv] at h; injection h
    | ok p =>
        obtain ⟨v1, b⟩ := p
        rw [hv] at h
        injection h with h1
        subst h1
        have hshape := validateTransaction_ok_shape hp kec c.validator sender
          recipient amount nonce c.vaultDstChainId c.vaultSrcChainId ts proof
          root (v1, b) hv
        refine ⟨?_, rfl, rfl⟩
        show v1.usedNonces = nonce :: c.validator.usedNonces
        rw [show v1 = { c.validator with
            usedNonces := nonce :: c.validator.usedNonces,
            validatedTransactions := c.validator.validatedTransactions + 1 }
          from hshape.1]

theorem stepV_usedNonces_unchanged (hp : Nat → Nat → Nat)
    (kec : List Nat → Nat) (s : VState) (vop : VOp)
    (h : isValidateOp vop = false) :
    (stepV hp kec s vop).usedNonces = s.usedNonces := by
  cases vop with
  | validate sender recipient amount nonce srcId dstId ts proof root =>
      simp [isValidateOp] at h
  | register caller now root =>
      simp only [stepV]
      unfold registerRoot
      split_ifs <;> simp [orKeep]
  | batchRegister caller now roots =>
      simp only [stepV]
      unfold batchRegisterRoots
      split_ifs <;> simp [orKeep]
  | invalidate caller root =>
      simp only [stepV]
      unfold invalidateRoot
      split_ifs <;> simp [orKeep]
  | pauseOp caller =>
      simp only [stepV]
      unfold pauseValidator
      split_ifs <;> simp [orKeep]
  | unpauseOp caller =>
      simp only [stepV]
      unfold unpauseValidator
      split_ifs <;> simp [orKeep]
  | setRelayer caller newRelayer =>
      simp only [stepV]
      unfold updateRelayer
      split_ifs <;> simp [orKeep]

theorem stepDest_preserves_inv (hp : Nat → Nat → Nat) (kec : List Nat → Nat)
    (c : ChainState) (op : DestOp) (hinv : NonceEffectInv c)
    (hnd : isDirectValidate op = false) :
    NonceEffectInv (stepDest hp kec c op) := by
  cases op with
  | mintCall sender recipient amount nonce ts srcTxHash proof root =>
      simp only [stepDest]
      cases hm : mint hp kec c sender recipient amount nonce ts srcTxHash
          proof root with
      | error e => exact hinv
      | ok c1 =>
          have hshape := mint_ok_shape hp kec c sender recipient amount nonce
            ts srcTxHash proof root c1 hm
          show NonceEffectInv c1
          intro n hn
          rw [hshape.1] at hn
          rcases List.mem_cons.mp hn with rfl | hold
          · left
            refine ⟨(recipient, amount, n), ?_, rfl⟩
            rw [hshape.2.1]
            exact List.mem_cons_self _ _
          · rcases hinv n hold with ⟨p, hpmem, hpn⟩ | ⟨p, hpmem, hpn⟩
            · left
              refine ⟨p, ?_, hpn⟩
              rw [hshape.2.1]
              exact List.mem_cons_of_mem _ hpmem
            · right
              refine ⟨p, ?_, hpn⟩
              rw [hshape.2.2]
              exact hpmem
  | unlockCall sender recipient amount nonce ts proof root =>
      simp only [stepDest]
      cases hm : unlock hp kec c sender recipient amount nonce ts proof root with
      | error e => exact hinv
      | ok c1 =>
          have hshape := unlock_ok_shape hp kec c sender recipient amount nonce
            ts proof root c1 hm
          show NonceEffectInv c1
          intro n hn
          rw [hshape.1] at hn
          rcases List.mem_cons.mp hn with rfl | hold
          · right
            refine ⟨(recipient, amount, n), ?_, rfl⟩
            rw [hshape.2.1]
            exact List.mem_cons_self _ _
          · rcases hinv n hold with ⟨p, hpmem, hpn⟩ | ⟨p, hpmem, hpn⟩
            · left
              refine ⟨p, ?_, hpn⟩
              rw [hshape.2.2]
              exact hpmem
            · right
              refine ⟨p, ?_, hpn⟩
              rw [hshape.2.1]
              exact List.mem_cons_of_mem _ hpmem
  | validatorCall vop =>
      simp only [stepDest]
      simp only [isDirectValidate] at hnd
      intro n hn
      have hn2 : n ∈ c.validator.usedNonces := by
        have hx : n ∈ (stepV hp kec c.validator vop).usedNonces := hn
        rwa [stepV_usedNonces_unchanged hp kec c.validator vop hnd] at hx
      exact hinv n hn2

/-- C5 counterexample data: a clean destination ledger; the relayer
registers the single-leaf root and then *anyone* calls
`validateTransaction` directly (it has no caller restriction), with the
empty proof against the single-leaf root. -/
def kecS : List Nat → Nat := fun l => l.foldl (· + ·) 0 + l.length

def c5validator : VState :=
  { validRoots := [], usedNonces := [], validatedTransactions := 0,
    lastRootUpdate := 0, relayer := 7, owner := 9, paused := false }

def c5init : ChainState where
  validator := c5validator
  tokenPaused := false
  vaultPaused := false
  tokenSrcChainId := 1
  tokenDstChainId := 2
  vaultSrcChainId := 1
  vaultDstChainId := 2
  tokenProcessed := []
  vaultProcessed := []
  totalMinted := 0
  totalUnlocked := 0
  totalMintTransactions := 0
  maxMintAmount := 10000000000000000000
  vaultBalance := 0
  mintRecords := []
  unlockRecords := []

def c5root : Nat := messageLibLeafHash kecS 1 2 5 1 1 2 3

def c5ops : List DestOp :=
  [DestOp.validatorCall (.register 7 100 c5root),
   DestOp.validatorCall (.validate 1 2 5 1 1 2 3 [] c5root)]

def c5final : ChainState := c5ops.foldl (stepDest hpW kecS) c5init

set_option maxRecDepth 20000 in
/-- C5 counterexample: after the relayer registers a root, a direct
`validateTransaction` call by a party other than the token/vault
contract consumes nonce `1` while no mint and no unlock happened: the
state where the nonce is consumed but the value-changing effect did not
happen is reachable. -/
theorem c5_direct_validate_counterexample :
    NonceEffectInv c5init
    ∧ 1 ∈ c5final.validator.usedNonces
    ∧ c5final.mintRecords = []
    ∧ c5final.unlockRecords = []
    ∧ c5final.totalMinted = 0
    ∧ c5final.totalUnlocked = 0
    ∧ ¬ NonceEffectInv c5final := by decide

/-- C5 (amended): the atomic unit of work is the mint/unlock call
itself: over every sequence of destination-ledger calls that does not
invoke `validateTransaction` directly (i.e. the validator is reached
only from inside `BridgeToken.mint` / `BridgeVault.unlock`, whose
revert undoes everything), a consumed nonce always has the
corresponding value-changing effect recorded in the same state — a
failure inside a call can never leave the nonce consumed without the
mint/unlock effect.  (A direct `validateTransaction` call breaks this,
see the counterexample.) -/
theorem c5_consumed_nonce_has_effect (hp : Nat → Nat → Nat)
    (kec : List Nat → Nat) (c : ChainState) (ops : List DestOp)
    (hinv : NonceEffectInv c)
    (hops : ∀ op ∈ ops, isDirectValidate op = false) :
    NonceEffectInv (ops.foldl (stepDest hp kec) c) := by
  induction ops generalizing c with
  | nil => exact hinv
  | cons op rest ih =>
      simp only [List.foldl_cons]
      exact ih (stepDest hp kec c op)
        (stepDest_preserves_inv hp kec c op hinv
          (hops op (List.mem_cons_self op rest)))
        (fun o ho => hops o (List.mem_cons_of_mem op ho))

def c5opsW : List DestOp :=
  [DestOp.validatorCall (.register 7 100 c5root),
   DestOp.mintCall 1 2 5 1 3 11 [] c5root]

set_option maxRecDepth 20000 in
theorem c5_consumed_nonce_has_effect_witness :
    NonceEffectInv c5init
    ∧ (∀ op ∈ c5opsW, isDirectValidate op = false)
    ∧ NonceEffectInv (c5opsW.foldl (stepDest hpW kecS) c5init) :=
  ⟨by decide, by decide,
    c5_consumed_nonce_has_effect hpW kecS c5init c5opsW (by decide) (by decide)⟩

/-! ## Relayer pipeline: transfer status lifecycle (C6)

`bridge_transactions.status` takes the values `'pending'`,
`'processing'` (the spec's proof_building), `'completed'` and
`'failed'`.  The durable store is a map from the unique source `txHash`
to the stored status (`none` = no row).  `PipeStep` is exactly the set
of writes the pipeline performs:

* the event listener inserts a row with status `'pending'` only when no
  row with that `txHash` exists (`getTransaction` check and the UNIQUE
  constraint, `eventListener.ts`);
* `TransactionSubmitter.processTransaction` is invoked only on rows
  returned by `getPendingTransactions()` (status `'pending'`), writes
  `'processing'`, writes `'processing'` again with the proof, then
  `'completed'`; the `catch` in `processPendingTransactions` writes
  `'failed'` for a transaction that failed during processing. -/

inductive TStatus where
  | pending
  | processing
  | completed
  | failed
deriving DecidableEq

def setStatus (db : Nat → Option TStatus) (h : Nat) (st : TStatus) :
    Nat → Option TStatus :=
  fun x => if x = h then some st else db x

inductive PipeStep : (Nat → Option TStatus) → (Nat → Option TStatus) → Prop where
  | insertObserved (db : Nat → Option TStatus) (h : Nat) :
      db h = none → PipeStep db (setStatus db h .pending)
  | markProcessing (db : Nat → Option TStatus) (h : Nat) :
      db h = some .pending → PipeStep db (setStatus db h .processing)
  | storeProof (db : Nat → Option TStatus) (h : Nat) :
      db h = some .processing → PipeStep db (setStatus db h .processing)
  | markCompleted (db : Nat → Option TStatus) (h : Nat) :
      db h = some .processing → PipeStep db (setStatus db h .completed)
  | markFailed (db : Nat → Option TStatus) (h : Nat) :
      db h = some .processing → PipeStep db (setStatus db h .failed)

/-- Position of a status along pending → processing → {completed,
failed} (absent rows sort first; the two terminal statuses share the
top rank). -/
def statusRank : Option TStatus → Nat
  | none => 0
  | some .pending => 1
  | some .processing => 2
  | some .completed => 3
  | some .failed => 3

theorem pipeStep_forward {db db1 : Nat → Option TStatus}
    (hstep : PipeStep db db1) (h : Nat) :
    statusRank (db h) ≤ statusRank (db1 h)
    ∧ (db h = some .completed → db1 h = some .completed)
    ∧ (db h = some .failed → db1 h = some .failed) := by
  cases hstep with
  | insertObserved k hk =>
      by_cases hx : h = k
      · subst hx
        simp [setStatus, hk, statusRank]
      · simp [setStatus, hx]
  | markProcessing k hk =>
      by_cases hx : h = k
      · subst hx
        simp [setStatus, hk, statusRank]
      · simp [setStatus, hx]
  | storeProof k hk =>
      by_cases hx : h = k
      · subst hx
        simp [setStatus, hk, statusRank]
      · simp [setStatus, hx]
  | markCompleted k hk =>
      by_cases hx : h = k
      · subst hx
        simp [setStatus, hk, statusRank]
      · simp [setStatus, hx]
  | markFailed k hk =>
      by_cases hx : h = k
      · subst hx
        simp [setStatus, hk, statusRank]
      · simp [setStatus, hx]

/-- C6: over every sequence of relay-pipeline operations (event
listener inserts and transaction submitter status updates), every
stored transfer's status only moves forward along pending → processing
(the spec's proof_building) → {completed, failed} and never backward,
and completed and failed are terminal: no operation changes them
again. -/
theorem c6_status_moves_forward {db db1 : Nat → Option TStatus}
    (hsteps : Relation.ReflTransGen PipeStep db db1) (h : Nat) :
    statusRank (db h) ≤ statusRank (db1 h)
    ∧ (db h = some .completed → db1 h = some .completed)
    ∧ (db h = some .failed → db1 h = some .failed) := by
  induction hsteps with
  | refl => exact ⟨le_rfl, fun hc => hc, fun hf => hf⟩
  | tail _ hstep ih =>
      have hone := pipeStep_forward hstep h
      exact ⟨le_trans ih.1 hone.1,
        fun hc => hone.2.1 (ih.2.1 hc),
        fun hf => hone.2.2 (ih.2.2 hf)⟩

def dbW0 : Nat → Option TStatus := fun _ => none

def dbW1 : Nat → Option TStatus := setStatus dbW0 5 .pending

theorem c6_status_moves_forward_witness :
    statusRank (dbW0 5) ≤ statusRank (dbW1 5)
    ∧ (dbW0 5 = some .completed → dbW1 5 = some .completed)
    ∧ (dbW0 5 = some .failed → dbW1 5 = some .failed) :=
  c6_status_moves_forward
    (Relation.ReflTransGen.single (PipeStep.insertObserved dbW0 5 rfl)) 5

/-! ## Relayer restart behaviour (C7)

A stored transfer row with the fields the recovery claim is about.  A
crash after the destination submission but before the `'completed'`
write leaves the row in status `'processing'` with `destTxHash` still
null.  On restart, `TransactionSubmitter.processPendingTransactions`
reads only `getPendingTransactions()` (status `'pending'`): the
`getProcessingTransactions` query exists in `database.ts` but is never
called.  One pass of the loop is modelled by `processAll`, with an
outcome oracle giving each processed transfer its destination
transaction hash (success) or `none` (failure). -/

structure Row where
  txHash : Nat
  status : TStatus
  destTxHash : Option Nat
deriving DecidableEq

/-- `getPendingTransactions()`. -/
def pendingRows (db : List Row) : List Row :=
  db.filter (fun r => r.status == .pending)

/-- The transfers whose destination operation one restart pass
submits. -/
def submittedTxs (db : List Row) : List Nat :=
  (pendingRows db).map Row.txHash

/-- One pass of `processPendingTransactions`: every pending row is
processed to `'completed'` (with its destination hash) or `'failed'`;
no other row is touched. -/
def processAll (outcomes : Nat → Option Nat) (db : List Row) : List Row :=
  db.map (fun r =>
    if r.status == .pending then
      match outcomes r.txHash with
      | some d => { r with status := .completed, destTxHash := some d }
      | none => { r with status := .failed }
    else r)

def crashedRow : Row := ⟨100, .processing, none⟩

/-- C7 counterexample: a transfer left in `'processing'` by a crash
after its destination operation settled.  On restart the driver does
not resubmit it (good), but it also does not detect the settlement and
does not mark it completed: the row is left exactly as it was, still
`'processing'`, contradicting the claimed recovery behaviour. -/
theorem c7_no_recovery_counterexample :
    processAll (fun _ => some 7) [crashedRow] = [crashedRow]
    ∧ crashedRow.status = .processing
    ∧ crashedRow.status ≠ .completed
    ∧ submittedTxs [crashedRow] = [] := by decide

/-- C7 (amended): after a crash that left a transfer in `'processing'`,
the restarted driver never submits its destination operation a second
time — one restart pass submits only `'pending'` transfers — but it
also never performs the claimed settlement check (`destTxHash`,
nonce-consumed state): the row is carried over unchanged and is never
marked completed. -/
theorem c7_processing_rows_untouched (outcomes : Nat → Option Nat)
    (db : List Row) (r : Row) (hmem : r ∈ db)
    (hst : r.status = .processing)
    (hnodup : (db.map Row.txHash).Nodup) :
    r ∈ processAll outcomes db ∧ r.txHash ∉ submittedTxs db := by
  constructor
  · apply List.mem_map.mpr
    refine ⟨r, hmem, ?_⟩
    rw [if_neg (by simp [hst])]
  · intro hsub
    obtain ⟨rp, hrpmem, hrphash⟩ := List.mem_map.mp hsub
    have hrp : rp ∈ db ∧ (rp.status == TStatus.pending) = true :=
      List.mem_filter.mp hrpmem
    have heq : rp = r :=
      List.inj_on_of_nodup_map hnodup hrp.1 hmem hrphash
    rw [heq, hst] at hrp
    exact absurd hrp.2 (by decide)

def dbW7 : List Row := [⟨100, .processing, none⟩, ⟨101, .pending, none⟩]

theorem c7_processing_rows_untouched_witness :
    (⟨100, .processing, none⟩ : Row) ∈ dbW7
    ∧ (⟨100, .processing, none⟩ : Row).status = .processing
    ∧ (dbW7.map Row.txHash).Nodup
    ∧ ((⟨100, .processing, none⟩ : Row) ∈ processAll (fun _ => some 7) dbW7
      ∧ (⟨100, .processing, none⟩ : Row).txHash ∉ submittedTxs dbW7) :=
  ⟨by decide, by decide, by decide,
    c7_processing_rows_untouched (fun _ => some 7) dbW7 ⟨100, .processing, none⟩
      (by decide) (by decide) (by decide)⟩

/-! ## Event observation (C8)

The listeners in `eventListener.ts` wait for confirmations, check
`getTransaction(txHash)` and insert the row with status `'pending'`.
No field validation happens anywhere on this path:
`ProofGenerator.validateTransaction` (which checks recipient, amount
bounds, nonce and chain ids) is never called by the listener. -/

structure Evt where
  txHash : Nat
  sender : Nat
  recipient : Nat
  amount : Nat
  nonce : Nat
  timestamp : Nat
deriving DecidableEq

structure TRow where
  txHash : Nat
  sender : Nat
  recipient : Nat
  amount : Nat
  nonce : Nat
  timestamp : Nat
  status : TStatus
deriving DecidableEq

def rowOfEvt (e : Evt) : TRow :=
  ⟨e.txHash, e.sender, e.recipient, e.amount, e.nonce, e.timestamp, .pending⟩

/-- The listener callback after the confirmation wait: skip when a row
with this source transaction id exists, else insert a pending row with
the event's fields as they are. -/
def processEvent (db : List TRow) (e : Evt) : List TRow :=
  if db.any (fun r => r.txHash == e.txHash) then db else db ++ [rowOfEvt e]

def evtBad : Evt := ⟨55, 1, 0, 0, 1, 10⟩

/-- C8 counterexample: an observed event with a zero recipient address
and a zero (out-of-bounds) amount is not rejected at observation time:
processing it against an empty store persists a pending Transfer row
for it. -/
theorem c8_malformed_event_persisted_counterexample :
    evtBad.recipient = 0
    ∧ evtBad.amount = 0
    ∧ processEvent [] evtBad = [rowOfEvt evtBad]
    ∧ rowOfEvt evtBad ∈ processEvent [] evtBad := by decide

/-- C8 (amended): the event observer performs no field validation at
observation time: every observed event whose source transaction id has
no stored row — malformed (zero recipient, out-of-bounds amount) or not
— is persisted as a pending Transfer row; only an already-stored id is
skipped (and then the store is unchanged). -/
theorem c8_observer_persists_unvalidated (db : List TRow) (e : Evt)
    (hfresh : db.any (fun r => r.txHash == e.txHash) = false) :
    rowOfEvt e ∈ processEvent db e
    ∧ (processEvent db e).length = db.length + 1
    ∧ (rowOfEvt e).status = .pending := by
  unfold processEvent
  rw [hfresh]
  simp [rowOfEvt]

theorem c8_observer_persists_unvalidated_witness :
    ([] : List TRow).any (fun r => r.txHash == evtBad.txHash) = false
    ∧ (rowOfEvt evtBad ∈ processEvent [] evtBad
      ∧ (processEvent [] evtBad).length = ([] : List TRow).length + 1
      ∧ (rowOfEvt evtBad).status = .pending) :=
  ⟨by decide, c8_observer_persists_unvalidated [] evtBad (by decide)⟩
